import Mathlib

/-!
Verification of the boost::bloom filter core against its specification.

The development shallowly embeds the relevant C++ sources:
* `detail/mulx64.hpp` / `detail/mulx.hpp` — the 64×64→128 wide multiply
  (`umul128`, portable schoolbook fallback `umul128Portable`) and the
  `mulx64` avalanche mixer;
* `detail/core.hpp` (`mcg_and_fastrange`, `filter_core`) — bucket selection,
  sizing (`requested_range`, `used_array_size`, `capacity`), `insert`,
  `may_contain` and `combine`;
* `detail/block_base.hpp`, `block.hpp`, `multiblock.hpp` — the subfilter
  strategies.

Machine integers are modelled as `Nat` with explicit `% 2 ^ 64` reductions
where the C++ `uint64_t`/`size_t` arithmetic can wrap.  Byte buffers are
modelled as a single natural number holding the little-endian bit string of
the array, so a `Block` load/store at byte offset `o` becomes a slice of
width `blockBits` at bit offset `8 * o`.
-/

namespace Bloom

/-- `2 ^ 64`, the modulus of `uint64_t` / 64-bit `size_t` arithmetic. -/
def M64 : Nat := 2 ^ 64

/-- `umul128` as implemented in the `__SIZEOF_INT128__` branch
(`detail/mulx64.hpp`): the full 128-bit product of two 64-bit values,
returned as the pair (low half, high half). -/
def umul128 (x y : Nat) : Nat × Nat :=
  (x * y % M64, x * y / M64 % M64)

/-- The portable 32×32 schoolbook fallback of `umul128`
(`detail/mulx64.hpp`, final `#else` branch).  Every `uint64_t` operation
carries its `% 2 ^ 64` reduction; the `>> 32` shifts are exact divisions. -/
def umul128Portable (x y : Nat) : Nat × Nat :=
  let x1 := x % 2 ^ 32
  let x2 := x / 2 ^ 32
  let y1 := y % 2 ^ 32
  let y2 := y / 2 ^ 32
  let r3 := x2 * y2 % M64
  let r2a := x1 * y2 % M64
  let r3 := (r3 + r2a / 2 ^ 32) % M64
  let r2b := x2 * y1 % M64
  let r3 := (r3 + r2b / 2 ^ 32) % M64
  let r1 := x1 * y1 % M64
  let r2 := (r1 / 2 ^ 32 + r2a % 2 ^ 32 + r2b % 2 ^ 32) % M64
  let lo := (r2 * 2 ^ 32 % M64 + r1 % 2 ^ 32) % M64
  let r3 := (r3 + r2 / 2 ^ 32) % M64
  (lo, r3)

theorem umul128_exact (x y : Nat) (hx : x < M64) (hy : y < M64) :
    (umul128 x y).2 * M64 + (umul128 x y).1 = x * y := by
  have hxy : x * y < M64 * M64 := Nat.mul_lt_mul_of_lt_of_lt hx hy
  have h2 : x * y / M64 < M64 := Nat.div_lt_of_lt_mul (by omega)
  simp only [umul128, Nat.mod_eq_of_lt h2, M64] at *
  omega

theorem umul128Portable_eq (x y : Nat) (hx : x < M64) (hy : y < M64) :
    umul128Portable x y = umul128 x y := by
  have ex : x = 2 ^ 32 * (x / 2 ^ 32) + x % 2 ^ 32 := (Nat.div_add_mod x (2 ^ 32)).symm
  have ey : y = 2 ^ 32 * (y / 2 ^ 32) + y % 2 ^ 32 := (Nat.div_add_mod y (2 ^ 32)).symm
  have hx2 : x / 2 ^ 32 ≤ 2 ^ 32 - 1 := by
    have : x / 2 ^ 32 < 2 ^ 32 := Nat.div_lt_of_lt_mul (by simpa [M64] using hx)
    omega
  have hy2 : y / 2 ^ 32 ≤ 2 ^ 32 - 1 := by
    have : y / 2 ^ 32 < 2 ^ 32 := Nat.div_lt_of_lt_mul (by simpa [M64] using hy)
    omega
  have hx1 : x % 2 ^ 32 ≤ 2 ^ 32 - 1 := by
    have := Nat.mod_lt x (y := 2 ^ 32) (by norm_num); omega
  have hy1 : y % 2 ^ 32 ≤ 2 ^ 32 - 1 := by
    have := Nat.mod_lt y (y := 2 ^ 32) (by norm_num); omega
  have key : x * y = (x / 2 ^ 32 * (y / 2 ^ 32)) * (2 ^ 32 * 2 ^ 32)
      + (x % 2 ^ 32 * (y / 2 ^ 32) + x / 2 ^ 32 * (y % 2 ^ 32)) * 2 ^ 32
      + x % 2 ^ 32 * (y % 2 ^ 32) := by
    conv_lhs => rw [ex, ey]
    ring
  have ha : x % 2 ^ 32 * (y % 2 ^ 32) ≤ (2 ^ 32 - 1) * (2 ^ 32 - 1) :=
    Nat.mul_le_mul hx1 hy1
  have hb : x % 2 ^ 32 * (y / 2 ^ 32) ≤ (2 ^ 32 - 1) * (2 ^ 32 - 1) :=
    Nat.mul_le_mul hx1 hy2
  have hc : x / 2 ^ 32 * (y % 2 ^ 32) ≤ (2 ^ 32 - 1) * (2 ^ 32 - 1) :=
    Nat.mul_le_mul hx2 hy1
  have hd : x / 2 ^ 32 * (y / 2 ^ 32) ≤ (2 ^ 32 - 1) * (2 ^ 32 - 1) :=
    Nat.mul_le_mul hx2 hy2
  simp only [umul128Portable, umul128, M64] at *
  generalize x % 2 ^ 32 * (y % 2 ^ 32) = a at *
  generalize x % 2 ^ 32 * (y / 2 ^ 32) = b at *
  generalize x / 2 ^ 32 * (y % 2 ^ 32) = c at *
  generalize x / 2 ^ 32 * (y / 2 ^ 32) = d at *
  rw [Prod.mk.injEq]
  constructor <;> omega

/-- The golden-ratio multiplier `0x9E3779B97F4A7C15` used by the avalanche
mixer (`detail/mulx64.hpp`). -/
def mixMultiplier : Nat := 0x9E3779B97F4A7C15

/-- `mulx64_mix(x) = lo ^ hi` of `umul128(x, 2^64/phi)`
(`detail/mulx64.hpp` / `detail/mulx.hpp`). -/
def mulx64Mix (x : Nat) : Nat :=
  let p := umul128 x mixMultiplier
  p.2 ^^^ p.1

/-- The multiplier computed by the `mcg_and_fastrange` constructor
(`detail/core.hpp` lines 75-101): the requested range `m` adjusted upward
until `rng % 8 ∈ {3, 5}`, in `size_t` arithmetic. -/
def mcgRng (m : Nat) : Nat :=
  (m + (if m % 8 ≤ 3 then 3 - m % 8
        else if m % 8 ≤ 5 then 5 - m % 8
        else 8 - m % 8 + 3)) % M64

/-- `mcg_and_fastrange::prepare_hash`: force the low bit of the hash to 1. -/
def prepareHash (hash : Nat) : Nat := hash ||| 1

/-- `mcg_and_fastrange::next_position`: extended multiply of the hash by
`rng`; the high half is the bucket position, the low half the next hash. -/
def nextPosition (rng hash : Nat) : Nat × Nat :=
  let p := umul128 hash rng
  (p.2, p.1)

/-- The stream of `(position, hash)` pairs visited by the `K` rounds of
`filter_core::insert` / `may_contain`: each round calls `next_position` on
the current hash and hands the updated hash to the subfilter
(`detail/core.hpp` lines 362-375 and 425-445; the pipelined `may_contain`
loop evaluates exactly the same pairs as the plain loop). -/
def roundList (rng hash : Nat) : Nat → List (Nat × Nat)
  | 0 => []
  | n + 1 =>
    let p := nextPosition rng hash
    p :: roundList rng p.2 n

theorem mcgRng_mod8 (m : Nat) : mcgRng m % 8 = 3 ∨ mcgRng m % 8 = 5 := by
  simp only [mcgRng, M64]
  split_ifs <;> omega

theorem mcgRng_ge (m : Nat) (hm : m + 11 < M64) : m ≤ mcgRng m := by
  simp only [mcgRng, M64] at *
  split_ifs <;> omega

theorem mcgRng_least (m n : Nat) (hm : m + 11 < M64) (hn : m ≤ n)
    (h8 : n % 8 = 3 ∨ n % 8 = 5) : mcgRng m ≤ n := by
  simp only [mcgRng, M64] at *
  split_ifs <;> omega

theorem mcgRng_fixed (m : Nat) (hm : m < M64) (h8 : m % 8 = 3 ∨ m % 8 = 5) :
    mcgRng m = m := by
  simp only [mcgRng, M64] at *
  split_ifs <;> omega

theorem mcgRng_le (m : Nat) : mcgRng m ≤ m + 11 := by
  have : (m + (if m % 8 ≤ 3 then 3 - m % 8
        else if m % 8 ≤ 5 then 5 - m % 8
        else 8 - m % 8 + 3)) % M64 ≤ m + (if m % 8 ≤ 3 then 3 - m % 8
        else if m % 8 ≤ 5 then 5 - m % 8
        else 8 - m % 8 + 3) := Nat.mod_le _ _
  simp only [mcgRng]
  split_ifs at * <;> omega

theorem nextPosition_lt (rng hash : Nat) (h1 : 1 ≤ rng) (hr : rng < M64)
    (hh : hash < M64) : (nextPosition rng hash).1 < rng := by
  have hlt : hash * rng < M64 * rng := by
    have := Nat.mul_lt_mul_of_lt_of_le hh (Nat.le_refl rng) h1
    simpa using this
  have hdiv : hash * rng / M64 < rng := Nat.div_lt_of_lt_mul (by simpa [Nat.mul_comm] using hlt)
  have hmod : hash * rng / M64 % M64 = hash * rng / M64 :=
    Nat.mod_eq_of_lt (Nat.lt_trans hdiv hr)
  simpa [nextPosition, umul128, hmod] using hdiv

/-- Every hash in the round stream keeps its low bit set, provided the
stream is seeded with an odd hash and the multiplier is odd. -/
theorem roundList_odd (rng hash n : Nat) (hr : rng % 2 = 1) (hh : hash % 2 = 1) :
    ∀ p ∈ roundList rng hash n, p.2 % 2 = 1 := by
  induction n generalizing hash with
  | zero => simp [roundList]
  | succ n ih =>
    intro p hp
    have hprod : hash * rng % 2 = 1 := by
      rw [Nat.mul_mod, hr, hh]
    have hlow : hash * rng % M64 % 2 = 1 := by
      simp only [M64]
      omega
    simp only [roundList, nextPosition, umul128, List.mem_cons] at hp
    rcases hp with h | h
    · subst h; exact hlow
    · exact ih _ hlow p h

theorem prepareHash_odd (hash : Nat) : prepareHash hash % 2 = 1 := by
  simp [prepareHash]

/-! ### Sizing (`filter_core::requested_range`, `used_array_size`, `capacity`)

`bs` is the compile-time `bucket_size` in bytes, `ubs` the `used_block_size`
in bytes (`CHAR_BIT = 8`); the engine statically asserts `bs ≤ ubs`. -/

/-- The `m -= (used_block_size - bucket_size) * CHAR_BIT` adjustment at the
top of `filter_core::requested_range` (`detail/core.hpp` lines 460-470). -/
def adjustedCap (bs ubs m : Nat) : Nat :=
  if (ubs - bs) * 8 < m then m - (ubs - bs) * 8 else m

/-- `filter_core::requested_range`: number of buckets requested for a
capacity of `m` bits, rounding up unless the ceiling expression would
overflow `size_t`. -/
def requestedRange (bs ubs m : Nat) : Nat :=
  if bs * 8 - 1 ≤ M64 - 1 - adjustedCap bs ubs m then
    (adjustedCap bs ubs m + bs * 8 - 1) / (bs * 8)
  else adjustedCap bs ubs m / (bs * 8)

/-- `filter_core::used_array_size(rng)` (`detail/core.hpp` lines 531-534),
in `size_t` arithmetic. -/
def usedArraySize (bs ubs rng : Nat) : Nat :=
  if rng ≠ 0 then (rng * bs + (ubs - bs)) % M64 else 0

/-- The runtime state of a `filter_core`: the stored `mcg_and_fastrange`
multiplier `rng`, whether `filter_array::data` is non-null (`hasData`), and
the bit array as a little-endian natural number. -/
structure FilterState where
  rng : Nat
  hasData : Bool
  array : Nat
  deriving DecidableEq

/-- The state built by `filter_core{m}`: `hs{requested_range(m)}`,
`ar(new_array(al, m ? hs.range() : 0))`, followed by `clear_bytes()`
(`detail/core.hpp` lines 221-227). -/
def newFilter (bs ubs m : Nat) : FilterState :=
  { rng := mcgRng (requestedRange bs ubs m)
    hasData := decide (m ≠ 0)
    array := 0 }

/-- `filter_core::range()`: the stored range if the array is allocated,
0 otherwise. -/
def stRange (st : FilterState) : Nat := if st.hasData then st.rng else 0

/-- `filter_core::capacity() = used_array_size() * CHAR_BIT`. -/
def capacity (bs ubs : Nat) (st : FilterState) : Nat :=
  usedArraySize bs ubs (stRange st) * 8 % M64

/-- The integer part of `filter_core::capacity_for` (`detail/core.hpp`
lines 349-355), as a function of the result `m` of the floating-point
solver `unadjusted_capacity_for`. -/
def capacityFromUnadjusted (bs ubs m : Nat) : Nat :=
  if m = 0 then 0
  else usedArraySize bs ubs (mcgRng (requestedRange bs ubs m)) * 8 % M64

theorem capacityFromUnadjusted_eq (bs ubs m : Nat) :
    capacityFromUnadjusted bs ubs m = capacity bs ubs (newFilter bs ubs m) := by
  by_cases h : m = 0
  · subst h
    simp [capacityFromUnadjusted, capacity, newFilter, stRange, usedArraySize]
  · simp [capacityFromUnadjusted, capacity, newFilter, stRange, h]

theorem usedArraySize_ne (bs ubs rng : Nat) (h : rng ≠ 0) :
    usedArraySize bs ubs rng = (rng * bs + (ubs - bs)) % M64 := by
  simp [usedArraySize, h]

theorem capacity_newFilter_ne (bs ubs m : Nat) (h : m ≠ 0) :
    capacity bs ubs (newFilter bs ubs m)
      = usedArraySize bs ubs (mcgRng (requestedRange bs ubs m)) * 8 % M64 := by
  simp [capacity, newFilter, stRange, h]

theorem cap_formula (bs ubs rng : Nat) (hrng : rng ≠ 0)
    (hlt : rng * bs + (ubs - bs) < M64)
    (hlt8 : (rng * bs + (ubs - bs)) * 8 < M64) :
    usedArraySize bs ubs rng * 8 % M64 = (rng * bs + (ubs - bs)) * 8 := by
  rw [usedArraySize_ne _ _ _ hrng, Nat.mod_eq_of_lt hlt, Nat.mod_eq_of_lt hlt8]

/-- Core facts about the capacity of a freshly constructed nonempty filter,
in the overflow-free regime. -/
theorem newFilter_capacity_core (bs ubs m : Nat) (hbs : 1 ≤ bs) (hub : bs ≤ ubs)
    (hm1 : 1 ≤ m) (hm : m + 104 * ubs < M64) :
    capacity bs ubs (newFilter bs ubs m)
      = bs * 8 * mcgRng (requestedRange bs ubs m) + (ubs - bs) * 8
    ∧ m ≤ capacity bs ubs (newFilter bs ubs m)
    ∧ capacity bs ubs (newFilter bs ubs m) ≤ m + 104 * ubs
    ∧ 1 ≤ mcgRng (requestedRange bs ubs m) := by
  have hM : M64 = 2 ^ 64 := rfl
  obtain ⟨a, hA⟩ : ∃ a, adjustedCap bs ubs m = a := ⟨_, rfl⟩
  have haf : a ≤ m ∧ 1 ≤ a ∧ m ≤ a + (ubs - bs) * 8 := by
    rw [adjustedCap] at hA; split_ifs at hA <;> omega
  have hceil : bs * 8 - 1 ≤ M64 - 1 - a := by omega
  have hrreq : requestedRange bs ubs m = (a + bs * 8 - 1) / (bs * 8) := by
    rw [requestedRange, hA, if_pos hceil]
  obtain ⟨rr, hRR⟩ : ∃ rr, (a + bs * 8 - 1) / (bs * 8) = rr := ⟨_, rfl⟩
  have hdm := Nat.div_add_mod (a + bs * 8 - 1) (bs * 8)
  rw [hRR] at hdm
  have hrlt : (a + bs * 8 - 1) % (bs * 8) < bs * 8 := Nat.mod_lt _ (by omega)
  obtain ⟨r, hR⟩ : ∃ r, (a + bs * 8 - 1) % (bs * 8) = r := ⟨_, rfl⟩
  rw [hR] at hdm hrlt
  obtain ⟨P, hP⟩ : ∃ P, bs * 8 * rr = P := ⟨_, rfl⟩
  rw [hP] at hdm
  have hrrP : rr ≤ P := by
    rw [← hP]; exact Nat.le_mul_of_pos_left rr (by omega)
  have hrr1 : 1 ≤ rr := by
    rcases Nat.eq_zero_or_pos rr with h0 | h1
    · rw [h0, Nat.mul_zero] at hP; omega
    · exact h1
  have hrr11 : rr + 11 < M64 := by omega
  obtain ⟨rng, hRNG⟩ : ∃ rng, mcgRng rr = rng := ⟨_, rfl⟩
  have hge : rr ≤ rng := hRNG ▸ mcgRng_ge rr hrr11
  have hle : rng ≤ rr + 11 := hRNG ▸ mcgRng_le rr
  have hrng1 : 1 ≤ rng := by omega
  obtain ⟨Q, hQ⟩ : ∃ Q, bs * 8 * rng = Q := ⟨_, rfl⟩
  have hPQ : P ≤ Q := by
    have h1 : bs * 8 * rr ≤ bs * 8 * rng := Nat.mul_le_mul_left _ hge
    rw [hP, hQ] at h1; exact h1
  have hQP : Q ≤ P + 88 * bs := by
    have h2 : bs * 8 * rng ≤ bs * 8 * (rr + 11) := Nat.mul_le_mul_left _ hle
    have h3 : bs * 8 * (rr + 11) = bs * 8 * rr + 88 * bs := by ring
    rw [h3, hP, hQ] at h2; exact h2
  have hK : (rng * bs + (ubs - bs)) * 8 = Q + (ubs - bs) * 8 := by
    rw [← hQ]; ring
  have hlt8 : (rng * bs + (ubs - bs)) * 8 < M64 := by rw [hK]; omega
  have hlt : rng * bs + (ubs - bs) < M64 := by
    have := hK
    omega
  have hcap : capacity bs ubs (newFilter bs ubs m) = Q + (ubs - bs) * 8 := by
    rw [capacity_newFilter_ne bs ubs m (by omega), hrreq, hRR, hRNG,
      cap_formula bs ubs rng (by omega) hlt hlt8, hK]
  refine ⟨?_, ?_, ?_, ?_⟩
  · rw [hcap, hrreq, hRR, hRNG, hQ]
  · rw [hcap]; omega
  · rw [hcap]; omega
  · rw [hrreq, hRR, hRNG]; omega

/-- Fixed-point property: requesting exactly `bs*8*rng + (ubs-bs)*8` bits,
with `rng mod 8 ∈ {3,5}`, reproduces that same capacity. -/
theorem capacity_fixed_core (bs ubs rng : Nat) (hbs : 1 ≤ bs) (hub : bs ≤ ubs)
    (hrng1 : 1 ≤ rng) (h8 : rng % 8 = 3 ∨ rng % 8 = 5)
    (hbound : bs * 8 * rng + (ubs - bs) * 8 + bs * 8 ≤ M64) :
    capacity bs ubs (newFilter bs ubs (bs * 8 * rng + (ubs - bs) * 8))
      = bs * 8 * rng + (ubs - bs) * 8 := by
  have hM : M64 = 2 ^ 64 := rfl
  have hrngP : rng ≤ bs * 8 * rng := Nat.le_mul_of_pos_left rng (by omega)
  obtain ⟨P, hP⟩ : ∃ P, bs * 8 * rng = P := ⟨_, rfl⟩
  rw [hP] at hbound hrngP ⊢
  have hbsP : bs * 8 ≤ P := by
    rw [← hP]
    calc bs * 8 = bs * 8 * 1 := by ring
    _ ≤ bs * 8 * rng := Nat.mul_le_mul_left _ hrng1
  have hadj : adjustedCap bs ubs (P + (ubs - bs) * 8) = P := by
    rw [adjustedCap, if_pos (by omega)]; omega
  have hceil : bs * 8 - 1 ≤ M64 - 1 - P := by omega
  have hdiv : (P + bs * 8 - 1) / (bs * 8) = rng := by
    rw [← hP]
    have h1 : bs * 8 * rng + bs * 8 - 1 = bs * 8 * rng + (bs * 8 - 1) := by omega
    rw [h1, Nat.mul_add_div (by omega), Nat.div_eq_of_lt (by omega)]
    omega
  have hrreq : requestedRange bs ubs (P + (ubs - bs) * 8) = rng := by
    rw [requestedRange, hadj, if_pos hceil, hdiv]
  have hfix : mcgRng rng = rng := mcgRng_fixed rng (by omega) h8
  have hK : (rng * bs + (ubs - bs)) * 8 = P + (ubs - bs) * 8 := by
    rw [← hP]; ring
  rw [capacity_newFilter_ne bs ubs _ (by omega), hrreq, hfix,
    cap_formula bs ubs rng (by omega) (by omega) (by omega), hK]

theorem capacity_zero (bs ubs : Nat) :
    capacity bs ubs (newFilter bs ubs 0) = 0 := by
  simp [capacity, newFilter, stRange, usedArraySize]

/-! ### Byte-wise combination (`filter_core::combine`, `operator&=`, `operator|=`) -/

/-- Byte `j` of the little-endian array `a`. -/
def byteAt (a j : Nat) : Nat := a / 256 ^ j % 256

/-- Little-endian packing of the first `n` bytes produced by `g`
(each store keeps only the low 8 bits, as a byte store does). -/
def packBytes : Nat → (Nat → Nat) → Nat
  | 0, _ => 0
  | n + 1, g => g 0 % 256 + 256 * packBytes n (fun j => g (j + 1))

/-- The byte loop of `filter_core::combine` (`detail/core.hpp` lines
689-699): apply `f` to each pair of corresponding bytes over the
`used_array_size()` bytes of the two arrays. -/
def combineBytes (f : Nat → Nat → Nat) (n a b : Nat) : Nat :=
  packBytes n (fun j => f (byteAt a j) (byteAt b j))

/-- `filter_core::combine(x, f)`: throw `std::invalid_argument` when the
ranges differ — before any byte is touched — otherwise apply `f`
byte-wise.  The second component models the raised exception. -/
def combine (bs ubs : Nat) (f : Nat → Nat → Nat) (a b : FilterState) :
    FilterState × Option String :=
  if stRange a ≠ stRange b then (a, some "incompatible filters")
  else ({ a with array := combineBytes f (usedArraySize bs ubs (stRange a)) a.array b.array },
        none)

/-- `filter_core::operator&=`. -/
def combineAnd (bs ubs : Nat) (a b : FilterState) : FilterState × Option String :=
  combine bs ubs (fun p q => p &&& q) a b

/-- `filter_core::operator|=`. -/
def combineOr (bs ubs : Nat) (a b : FilterState) : FilterState × Option String :=
  combine bs ubs (fun p q => p ||| q) a b

theorem byteAt_lt (a j : Nat) : byteAt a j < 256 := Nat.mod_lt _ (by norm_num)

theorem byteAt_packBytes (n : Nat) (g : Nat → Nat) (j : Nat) (hj : j < n) :
    byteAt (packBytes n g) j = g j % 256 := by
  induction n generalizing g j with
  | zero => omega
  | succ n ih =>
    cases j with
    | zero =>
      have h : packBytes (n + 1) g = g 0 % 256 + 256 * packBytes n (fun j => g (j + 1)) := rfl
      rw [h, byteAt]
      simp only [pow_zero, Nat.div_one]
      omega
    | succ j =>
      have h : packBytes (n + 1) g = g 0 % 256 + 256 * packBytes n (fun j => g (j + 1)) := rfl
      rw [h, byteAt]
      have hdiv : (g 0 % 256 + 256 * packBytes n (fun j => g (j + 1))) / 256 ^ (j + 1)
          = packBytes n (fun j => g (j + 1)) / 256 ^ j := by
        rw [pow_succ, Nat.mul_comm (256 ^ j) 256, ← Nat.div_div_eq_div_mul]
        have : (g 0 % 256 + 256 * packBytes n (fun j => g (j + 1))) / 256
            = packBytes n (fun j => g (j + 1)) := by
          omega
        rw [this]
      rw [hdiv]
      exact ih (fun j => g (j + 1)) j (by omega)

/-! ### Bit-string utilities

The filter array is a little-endian bit string; `bitSub a b` says every
bit set in `a` is set in `b`. -/

/-- Bitwise containment of natural numbers. -/
def bitSub (a b : Nat) : Prop := ∀ j, a.testBit j = true → b.testBit j = true

theorem bitSub_refl (a : Nat) : bitSub a a := fun _ h => h

theorem bitSub_trans {a b c : Nat} (h1 : bitSub a b) (h2 : bitSub b c) :
    bitSub a c := fun j hj => h2 j (h1 j hj)

theorem bitSub_lor_left (a x : Nat) : bitSub a (a ||| x) := by
  intro j hj; simp [Nat.testBit_or, hj]

theorem bitSub_lor_right (a x : Nat) : bitSub x (a ||| x) := by
  intro j hj; simp [Nat.testBit_or, hj]

theorem bitSub_lor_iff (a b v : Nat) :
    bitSub (a ||| b) v ↔ bitSub a v ∧ bitSub b v := by
  constructor
  · intro h
    exact ⟨fun j hj => h j (by simp [Nat.testBit_or, hj]),
           fun j hj => h j (by simp [Nat.testBit_or, hj])⟩
  · rintro ⟨h1, h2⟩ j hj
    rw [Nat.testBit_or] at hj
    rcases Bool.or_eq_true_iff.mp hj with h | h
    · exact h1 j h
    · exact h2 j h

theorem lor_mono {a b v : Nat} (h1 : bitSub a v) (h2 : bitSub b v) :
    bitSub (a ||| b) v := (bitSub_lor_iff a b v).mpr ⟨h1, h2⟩

theorem land_eq_self_iff_bitSub (a v : Nat) : a &&& v = a ↔ bitSub a v := by
  constructor
  · intro h j hj
    have := congrArg (fun x => x.testBit j) h
    simp only [Nat.testBit_and] at this
    rw [hj] at this
    simpa using this.symm
  · intro h
    apply Nat.eq_of_testBit_eq
    intro j
    rw [Nat.testBit_and]
    cases haj : a.testBit j
    · simp
    · simp [h j haj]

theorem bitSub_of_lt_two_pow {m v : Nat} (hm : m < 2 ^ n)
    (h : ∀ j, j < n → m.testBit j = true → v.testBit j = true) : bitSub m v := by
  intro j hj
  by_cases hlt : j < n
  · exact h j hlt hj
  · have : m < 2 ^ j :=
      Nat.lt_of_lt_of_le hm (Nat.pow_le_pow_right (by norm_num) (by omega))
    rw [Nat.testBit_lt_two_pow this] at hj
    exact absurd hj (by simp)

/-! ### Block load/store on the array

`filter_core::get`/`set` load a `Block` at byte offset `pos * bucket_size`
(by aligned access or `memcpy`), apply the subfilter and store it back.
On the little-endian bit string a load is the slice of `bits` bits at bit
offset `off`; a store replaces that slice. -/

/-- Load the `bits`-wide block value at bit offset `off` of array `a`. -/
def readBlock (a off bits : Nat) : Nat := a >>> off &&& (2 ^ bits - 1)

/-- Store the value `v` (of width `bits`) at bit offset `off` of array `a`:
bits below `off` and at or above `off + bits` are kept, the slice in
between is replaced by `v`. -/
def writeBlock (a off bits v : Nat) : Nat :=
  (a &&& (2 ^ off - 1)) ||| (v <<< off) ||| ((a >>> (off + bits)) <<< (off + bits))

theorem testBit_readBlock (a off bits j : Nat) :
    (readBlock a off bits).testBit j = (a.testBit (off + j) && decide (j < bits)) := by
  simp [readBlock, Nat.testBit_and, Nat.testBit_shiftRight, Nat.testBit_two_pow_sub_one,
    Bool.and_comm]

/-- A store of the loaded block OR-ed with a fingerprint `m` is exactly an
OR of the shifted fingerprint into the array. -/
theorem writeBlock_lor (a off bits m : Nat) (hm : m < 2 ^ bits) :
    writeBlock a off bits (readBlock a off bits ||| m) = a ||| (m <<< off) := by
  apply Nat.eq_of_testBit_eq
  intro j
  simp only [writeBlock, readBlock, Nat.testBit_or, Nat.testBit_and,
    Nat.testBit_shiftLeft, Nat.testBit_shiftRight, Nat.testBit_two_pow_sub_one]
  by_cases h1 : j < off
  · have h2 : ¬ (j ≥ off) := by omega
    have h3 : ¬ (j ≥ off + bits) := by omega
    simp [h1, h2, h3]
  · by_cases h2 : j < off + bits
    · have hge : j ≥ off := by omega
      have h3 : ¬ (j ≥ off + bits) := by omega
      have e1 : off + (j - off) = j := by omega
      have e2 : j - off < bits := by omega
      simp [h1, hge, h3, e1, e2]
    · have hge : j ≥ off := by omega
      have h3 : j ≥ off + bits := by omega
      have e1 : off + (j - off) = j := by omega
      have e2 : ¬ (j - off < bits) := by omega
      have e3 : off + bits + (j - (off + bits)) = j := by omega
      have hmb : m.testBit (j - off) = false := by
        apply Nat.testBit_lt_two_pow
        exact Nat.lt_of_lt_of_le hm (Nat.pow_le_pow_right (by norm_num) (by omega))
      simp [h1, hge, h3, e1, e2, e3, hmb]

theorem readBlock_mono {a b : Nat} (off bits : Nat) (h : bitSub a b) :
    bitSub (readBlock a off bits) (readBlock b off bits) := by
  intro j hj
  rw [testBit_readBlock] at hj ⊢
  rcases Bool.and_eq_true_iff.mp hj with ⟨hja, hjb⟩
  simp [h _ hja, hjb]

/-- A fingerprint whose shifted copy is contained in the array is contained
in the block loaded at that offset. -/
theorem bitSub_readBlock_of {m A : Nat} (off bits : Nat) (hm : m < 2 ^ bits)
    (h : bitSub (m <<< off) A) : bitSub m (readBlock A off bits) := by
  apply bitSub_of_lt_two_pow hm
  intro j hjb hj
  have hs : (m <<< off).testBit (off + j) = true := by
    simp only [Nat.testBit_shiftLeft]
    have e : off + j - off = j := by omega
    simp [e, hj]
  have := h _ hs
  rw [testBit_readBlock]
  simp [this, hjb]

/-! ### Subfilter strategies (`block_base.hpp`, `block.hpp`, `multiblock.hpp`) -/

/-- One chunk of `block_base::loop`: `n` iterations of `h >>= shift; f(h)`
starting from `hash`, collecting the successive `h` values. -/
def chunkSeq (shift hash : Nat) : Nat → List Nat
  | 0 => []
  | n + 1 => (hash >>> shift) :: chunkSeq shift (hash >>> shift) n

/-- The outer structure of `block_base::loop`: `c` full chunks of
`rk = rehash_k` indices, rehashing with `mulx64_mix` between chunks,
followed by a final partial chunk of `rem` indices. -/
def loopSeqAux (shift rk rem : Nat) (hash : Nat) : Nat → List Nat
  | 0 => chunkSeq shift hash rem
  | c + 1 => chunkSeq shift hash rk ++ loopSeqAux shift rk rem (mulx64Mix hash) c

/-- The `kk` hash values handed to `f` by `block_base<Block,K>::loop(hash,f)`
with `shift = log2(block width)` and `rehash_k = (64 - shift) / shift`. -/
def loopSeq (shift kk hash : Nat) : List Nat :=
  loopSeqAux shift ((64 - shift) / shift) (kk % ((64 - shift) / shift)) hash
    (kk / ((64 - shift) / shift))

theorem chunkSeq_length (shift hash n : Nat) : (chunkSeq shift hash n).length = n := by
  induction n generalizing hash with
  | zero => rfl
  | succ n ih => simp [chunkSeq, ih]

theorem loopSeqAux_length (shift rk rem hash c : Nat) :
    (loopSeqAux shift rk rem hash c).length = c * rk + rem := by
  induction c generalizing hash with
  | zero => simp [loopSeqAux, chunkSeq_length]
  | succ c ih =>
    simp [loopSeqAux, chunkSeq_length, ih]
    ring

theorem loopSeq_length (shift kk hash : Nat) : (loopSeq shift kk hash).length = kk := by
  rw [loopSeq, loopSeqAux_length, Nat.mul_comm]
  exact Nat.div_add_mod kk _

/-- The `x |= Block(1) << (h & mask)` accumulation of `block<Block,K>::mark`
over the produced index sequence, on a block of width `w` bits. -/
def bFold (w : Nat) (l : List Nat) (v : Nat) : Nat :=
  match l with
  | [] => v
  | h :: t => bFold w t (v ||| 1 <<< (h &&& (w - 1)))

/-- `block<Block,K>::mark` (`block.hpp`): `w = 2^shift` is the block width
in bits, `kk` the number of bits set per invocation. -/
def blockMark (shift kk v hash : Nat) : Nat :=
  bFold (2 ^ shift) (loopSeq shift kk hash) v

/-- `block<Block,K>::check`: build the fingerprint into an empty block and
test `(x & fp) == fp` (`block.hpp`). -/
def blockCheck (shift kk v hash : Nat) : Bool :=
  v &&& blockMark shift kk 0 hash == blockMark shift kk 0 hash

/-- The indexed accumulation of `multiblock<Block,K>::mark`: array element
`i` receives bit `h & mask`, which on the packed little-endian value is bit
`i * w + (h & mask)`. -/
def mbFold (w : Nat) (l : List Nat) (i v : Nat) : Nat :=
  match l with
  | [] => v
  | h :: t => mbFold w t (i + 1) (v ||| 1 <<< (i * w + (h &&& (w - 1))))

/-- `multiblock<Block,K>::mark` (`multiblock.hpp`), on the packed value. -/
def multiblockMark (shift kk v hash : Nat) : Nat :=
  mbFold (2 ^ shift) (loopSeq shift kk hash) 0 v

/-- The `res &= (x[i] >> (h & mask))` accumulation of
`multiblock<Block,K>::check`; `x[i]` is the `w`-bit slice `i` of the packed
value `v`. -/
def mbCheckFold (w v : Nat) (l : List Nat) (i res : Nat) : Nat :=
  match l with
  | [] => res
  | h :: t =>
    mbCheckFold w v t (i + 1)
      (res &&& ((v >>> (i * w) &&& (2 ^ w - 1)) >>> (h &&& (w - 1))))

/-- `multiblock<Block,K>::check` (`multiblock.hpp`): the accumulated `res`
(seeded with `Block(1)`) converted to `bool`. -/
def multiblockCheck (shift kk v hash : Nat) : Bool :=
  mbCheckFold (2 ^ shift) v (loopSeq shift kk hash) 0 1 != 0

/-- A subfilter strategy: the width in bits of the `Block` value it reads
and writes, and its `mark`/`check` members. -/
structure Subfilter where
  blockBits : Nat
  mark : Nat → Nat → Nat
  check : Nat → Nat → Bool

/-- The properties of a subfilter that make the engine sound: `mark` only
ORs a hash-determined fingerprint into the block, the fingerprint fits the
block, and `check` succeeds exactly when the fingerprint is contained in
the block. -/
structure SubfilterSound (S : Subfilter) : Prop where
  mark_lor : ∀ v h, S.mark v h = v ||| S.mark 0 h
  fp_lt : ∀ h, S.mark 0 h < 2 ^ S.blockBits
  check_iff : ∀ v h, S.check v h = true ↔ S.mark 0 h &&& v = S.mark 0 h

/-- `block<Block,K>` with `2^shift`-bit blocks and `kk` bits per call. -/
def blockSF (shift kk : Nat) : Subfilter :=
  { blockBits := 2 ^ shift
    mark := fun v h => blockMark shift kk v h
    check := fun v h => blockCheck shift kk v h }

/-- `multiblock<Block,K>` with `2^shift`-bit blocks and `kk` blocks. -/
def multiblockSF (shift kk : Nat) : Subfilter :=
  { blockBits := kk * 2 ^ shift
    mark := fun v h => multiblockMark shift kk v h
    check := fun v h => multiblockCheck shift kk v h }

theorem bitSub_zero (v : Nat) : bitSub 0 v := by
  intro j hj
  simp [Nat.zero_testBit] at hj

theorem bitSub_two_pow_iff (p v : Nat) : bitSub (2 ^ p) v ↔ v.testBit p = true := by
  constructor
  · intro h
    exact h p Nat.testBit_two_pow_self
  · intro h j hj
    rw [Nat.testBit_two_pow] at hj
    have : p = j := by simpa using hj
    rwa [← this]

theorem bFold_lor (w : Nat) (l : List Nat) (v : Nat) :
    bFold w l v = v ||| bFold w l 0 := by
  induction l generalizing v with
  | nil => simp [bFold]
  | cons h t ih =>
    simp only [bFold, Nat.zero_or]
    rw [ih (v ||| _), ih (1 <<< _), Nat.or_assoc]

theorem bFold_lt (w : Nat) (hw : 1 ≤ w) (l : List Nat) : bFold w l 0 < 2 ^ w := by
  induction l with
  | nil => exact Nat.pow_pos (by norm_num)
  | cons h t ih =>
    simp only [bFold, Nat.zero_or]
    rw [bFold_lor]
    apply Nat.or_lt_two_pow _ ih
    rw [Nat.one_shiftLeft]
    exact Nat.pow_lt_pow_right (by norm_num)
      (Nat.lt_of_le_of_lt Nat.and_le_right (by omega))

theorem blockSF_sound (shift kk : Nat) : SubfilterSound (blockSF shift kk) := by
  refine ⟨?_, ?_, ?_⟩
  · intro v h
    exact bFold_lor _ _ v
  · intro h
    exact bFold_lt _ (Nat.pos_pow_of_pos shift (by norm_num)) _
  · intro v h
    simp [blockSF, blockCheck, blockMark, beq_iff_eq, Nat.and_comm]

theorem mbFold_lor (w : Nat) (l : List Nat) (i v : Nat) :
    mbFold w l i v = v ||| mbFold w l i 0 := by
  induction l generalizing i v with
  | nil => simp [mbFold]
  | cons h t ih =>
    simp only [mbFold, Nat.zero_or]
    rw [ih (i + 1) (v ||| _), ih (i + 1) (1 <<< _), Nat.or_assoc]

theorem mbFold_lt (w kk : Nat) (hw : 1 ≤ w) (l : List Nat) (i : Nat)
    (hlen : i + l.length ≤ kk) : mbFold w l i 0 < 2 ^ (kk * w) := by
  induction l generalizing i with
  | nil => exact Nat.pow_pos (by norm_num)
  | cons h t ih =>
    simp only [mbFold, Nat.zero_or]
    rw [mbFold_lor]
    apply Nat.or_lt_two_pow _ (ih (i + 1) (by simp at hlen; omega))
    rw [Nat.one_shiftLeft]
    apply Nat.pow_lt_pow_right (by norm_num)
    have hs : h &&& (w - 1) ≤ w - 1 := Nat.and_le_right
    have hi1 : i + 1 ≤ kk := by simp at hlen; omega
    have hmul : (i + 1) * w ≤ kk * w := Nat.mul_le_mul_right w hi1
    have hexp : (i + 1) * w = i * w + w := by ring
    omega

theorem mbCheckFold_zero (w v : Nat) (l : List Nat) (i : Nat) :
    mbCheckFold w v l i 0 = 0 := by
  induction l generalizing i with
  | nil => rfl
  | cons h t ih =>
    simp only [mbCheckFold, Nat.zero_and]
    exact ih (i + 1)

theorem mb_check_iff (w v : Nat) (hw : 1 ≤ w) (l : List Nat) (i : Nat) :
    mbCheckFold w v l i 1 ≠ 0 ↔ bitSub (mbFold w l i 0) v := by
  induction l generalizing i with
  | nil =>
    simp only [mbCheckFold, mbFold]
    constructor
    · intro _; exact bitSub_zero v
    · intro _; omega
  | cons h t ih =>
    have hs : h &&& (w - 1) < w := Nat.lt_of_le_of_lt Nat.and_le_right (by omega)
    have hq0 : ((v >>> (i * w) &&& (2 ^ w - 1)) >>> (h &&& (w - 1))).testBit 0
        = v.testBit (i * w + (h &&& (w - 1))) := by
      simp [Nat.testBit_shiftRight, Nat.testBit_and, Nat.testBit_two_pow_sub_one, hs]
    simp only [mbCheckFold, mbFold, Nat.zero_or]
    rw [Nat.one_and_eq_mod_two, mbFold_lor, bitSub_lor_iff, Nat.one_shiftLeft,
      bitSub_two_pow_iff]
    cases hb : v.testBit (i * w + (h &&& (w - 1)))
    · have hm0 : (v >>> (i * w) &&& (2 ^ w - 1)) >>> (h &&& (w - 1)) % 2 = 0 := by
        rw [Nat.mod_two_eq_zero_iff_testBit_zero, hq0]
        exact hb
      rw [hm0, mbCheckFold_zero]
      simp
    · have hm1 : (v >>> (i * w) &&& (2 ^ w - 1)) >>> (h &&& (w - 1)) % 2 = 1 := by
        rw [Nat.mod_two_eq_one_iff_testBit_zero, hq0]
        exact hb
      rw [hm1, ih (i + 1)]
      simp

theorem multiblockSF_sound (shift kk : Nat) : SubfilterSound (multiblockSF shift kk) := by
  refine ⟨?_, ?_, ?_⟩
  · intro v h
    exact mbFold_lor _ _ 0 v
  · intro h
    exact mbFold_lt _ kk (Nat.pos_pow_of_pos shift (by norm_num)) _ 0
      (by rw [loopSeq_length]; omega)
  · intro v h
    show (mbCheckFold (2 ^ shift) v (loopSeq shift kk h) 0 1 != 0) = true ↔ _
    rw [bne_iff_ne, mb_check_iff _ _ (Nat.pos_pow_of_pos shift (by norm_num)),
      land_eq_self_iff_bitSub]
    exact Iff.rfl

/-! ### Filter engine (`filter_core::insert` / `may_contain`) -/

/-- One round of `filter_core::insert`: load the block at byte offset
`pos * bucket_size`, `subfilter::mark` it with the round's hash, store it
back (`detail/core.hpp`, `set`, lines 647-667). -/
def stepInsert (S : Subfilter) (bs a : Nat) (pr : Nat × Nat) : Nat :=
  writeBlock a (pr.1 * bs * 8) S.blockBits
    (S.mark (readBlock a (pr.1 * bs * 8) S.blockBits) pr.2)

/-- `filter_core::insert(hash)` (`detail/core.hpp` lines 362-375): prepare
the hash, then `K` rounds of bucket selection and `set`.  When
`filter_array::data` is null the first-round check returns before any
write, so the state is unchanged. -/
def insert (S : Subfilter) (k bs : Nat) (st : FilterState) (hash : Nat) : FilterState :=
  if st.hasData then
    { st with
      array := (roundList st.rng (prepareHash hash) k).foldl (stepInsert S bs) st.array }
  else st

/-- The block value a `may_contain` round observes at bucket `pos`: the
stored array when allocated, otherwise the static all-ones sentinel that
`new_array` installs for zero-capacity filters (`detail/core.hpp` lines
472-491). -/
def blockRead (S : Subfilter) (bs : Nat) (st : FilterState) (pos : Nat) : Nat :=
  if st.hasData then readBlock st.array (pos * bs * 8) S.blockBits
  else 2 ^ S.blockBits - 1

/-- `filter_core::may_contain(hash)` (`detail/core.hpp` lines 425-445):
every round must pass `subfilter::check`.  The source's pipelined loop
computes one `next_element` ahead but checks exactly the same
`(position, hash)` pairs as this conjunction. -/
def mayContain (S : Subfilter) (k bs : Nat) (st : FilterState) (hash : Nat) : Bool :=
  (roundList st.rng (prepareHash hash) k).all fun pr =>
    S.check (blockRead S bs st pr.1) pr.2

/-- A sequence of inserts. -/
def insertAll (S : Subfilter) (k bs : Nat) (st : FilterState) (l : List Nat) : FilterState :=
  l.foldl (insert S k bs) st

theorem stepInsert_eq {S : Subfilter} (hS : SubfilterSound S) (bs a : Nat)
    (pr : Nat × Nat) :
    stepInsert S bs a pr = a ||| (S.mark 0 pr.2 <<< (pr.1 * bs * 8)) := by
  rw [stepInsert, hS.mark_lor, writeBlock_lor _ _ _ _ (hS.fp_lt _)]

theorem foldl_stepInsert_grows {S : Subfilter} (hS : SubfilterSound S) (bs : Nat)
    (l : List (Nat × Nat)) (a : Nat) :
    bitSub a (l.foldl (stepInsert S bs) a) := by
  induction l generalizing a with
  | nil => exact bitSub_refl a
  | cons pr t ih =>
    refine bitSub_trans ?_ (ih (stepInsert S bs a pr))
    rw [stepInsert_eq hS]
    exact bitSub_lor_left _ _

theorem foldl_stepInsert_contains {S : Subfilter} (hS : SubfilterSound S) (bs : Nat)
    (l : List (Nat × Nat)) (a : Nat) :
    ∀ pr ∈ l, bitSub (S.mark 0 pr.2 <<< (pr.1 * bs * 8)) (l.foldl (stepInsert S bs) a) := by
  induction l generalizing a with
  | nil => intro pr hpr; simp at hpr
  | cons q t ih =>
    intro pr hpr
    rcases List.mem_cons.mp hpr with h | h
    · subst h
      refine bitSub_trans ?_ (foldl_stepInsert_grows hS bs t (stepInsert S bs a pr))
      rw [stepInsert_eq hS]
      exact bitSub_lor_right _ _
    · exact ih (stepInsert S bs a q) pr h

theorem mayContain_of_contains {S : Subfilter} (hS : SubfilterSound S) (k bs : Nat)
    (st : FilterState) (x : Nat)
    (h : st.hasData = true →
      ∀ pr ∈ roundList st.rng (prepareHash x) k,
        bitSub (S.mark 0 pr.2 <<< (pr.1 * bs * 8)) st.array) :
    mayContain S k bs st x = true := by
  rw [mayContain, List.all_eq_true]
  intro pr hpr
  rw [hS.check_iff, land_eq_self_iff_bitSub]
  cases hd : st.hasData
  · rw [blockRead, hd, if_neg (by simp)]
    refine bitSub_of_lt_two_pow (hS.fp_lt _) ?_
    intro j hj _
    rw [Nat.testBit_two_pow_sub_one]
    simpa using hj
  · rw [blockRead, hd, if_pos rfl]
    exact bitSub_readBlock_of _ _ (hS.fp_lt _) (h hd pr hpr)

theorem insert_rng (S : Subfilter) (k bs : Nat) (st : FilterState) (h : Nat) :
    (insert S k bs st h).rng = st.rng := by
  rw [insert]; split <;> rfl

theorem insert_hasData (S : Subfilter) (k bs : Nat) (st : FilterState) (h : Nat) :
    (insert S k bs st h).hasData = st.hasData := by
  rw [insert]; split <;> rfl

theorem insert_array_grows {S : Subfilter} (hS : SubfilterSound S) (k bs : Nat)
    (st : FilterState) (h : Nat) :
    bitSub st.array (insert S k bs st h).array := by
  rw [insert]
  split
  · exact foldl_stepInsert_grows hS bs _ st.array
  · exact bitSub_refl _

theorem check_mono {S : Subfilter} (hS : SubfilterSound S) {v v' h : Nat}
    (hsub : bitSub v v') (hc : S.check v h = true) : S.check v' h = true := by
  rw [hS.check_iff, land_eq_self_iff_bitSub] at hc ⊢
  exact bitSub_trans hc hsub

theorem mayContain_mono {S : Subfilter} (hS : SubfilterSound S) (k bs : Nat)
    (st : FilterState) (h x : Nat) (hc : mayContain S k bs st x = true) :
    mayContain S k bs (insert S k bs st h) x = true := by
  rw [mayContain, List.all_eq_true] at hc ⊢
  rw [insert_rng]
  intro pr hpr
  have hold := hc pr hpr
  cases hd : st.hasData
  · have : insert S k bs st h = st := by rw [insert, hd]; simp
    rw [this]
    exact hold
  · have hd' : (insert S k bs st h).hasData = true := by rw [insert_hasData, hd]
    rw [blockRead, hd', if_pos rfl]
    rw [blockRead, hd, if_pos rfl] at hold
    exact check_mono hS (readBlock_mono _ _ (insert_array_grows hS k bs st h)) hold

theorem mayContain_insert_self {S : Subfilter} (hS : SubfilterSound S) (k bs : Nat)
    (st : FilterState) (x : Nat) :
    mayContain S k bs (insert S k bs st x) x = true := by
  apply mayContain_of_contains hS
  intro hd pr hpr
  rw [insert_rng] at hpr
  cases hd0 : st.hasData
  · rw [insert_hasData, hd0] at hd
    exact absurd hd (by simp)
  · have he : (insert S k bs st x).array
        = (roundList st.rng (prepareHash x) k).foldl (stepInsert S bs) st.array := by
      rw [insert, hd0]; simp
    rw [he]
    exact foldl_stepInsert_contains hS bs _ st.array pr hpr

theorem mayContain_insertAll {S : Subfilter} (hS : SubfilterSound S) (k bs : Nat)
    (l : List Nat) (st : FilterState) (x : Nat)
    (h : mayContain S k bs st x = true) :
    mayContain S k bs (insertAll S k bs st l) x = true := by
  induction l generalizing st with
  | nil => exact h
  | cons a t ih => exact ih (insert S k bs st a) (mayContain_mono hS k bs st a x h)

theorem noFalseNegatives {S : Subfilter} (hS : SubfilterSound S) (k bs : Nat)
    (st : FilterState) (l : List Nat) (x : Nat) (hx : x ∈ l) :
    mayContain S k bs (insertAll S k bs st l) x = true := by
  induction l generalizing st with
  | nil => simp at hx
  | cons a t ih =>
    rcases List.mem_cons.mp hx with h | h
    · subst h
      exact mayContain_insertAll hS k bs t _ x (mayContain_insert_self hS k bs st x)
    · exact ih (insert S k bs st a) h

/-! ### The claims -/

/-- C1: No false negatives.  For every subfilter satisfying the engine
contract (as the repository's `block` and `multiblock` strategies do, see
`blockSF_sound` / `multiblockSF_sound`), every `K`, every bucket stride,
every starting filter state, every sequence `l` of inserted hashes and
every `x ∈ l`, `may_contain(x)` returns `true` after the inserts: the
bits marked by `insert` for `x`'s hash are exactly the bits checked by
`may_contain` for the same hash. -/
theorem C1_no_false_negatives {S : Subfilter} (hS : SubfilterSound S)
    (k bs : Nat) (st : FilterState) (l : List Nat) (x : Nat) (hx : x ∈ l) :
    mayContain S k bs (insertAll S k bs st l) x = true :=
  noFalseNegatives hS k bs st l x hx

theorem C1_witness :
    mayContain (multiblockSF 3 2) 2 1
      (insertAll (multiblockSF 3 2) 2 1 (newFilter 1 2 64) [5, 99]) 99 = true :=
  C1_no_false_negatives (multiblockSF_sound 3 2) 2 1 (newFilter 1 2 64) [5, 99] 99
    (by decide)

/-- C2: Construction sizing.  In the overflow-free regime (`m` small enough
that the `size_t` sizing arithmetic is exact — beyond it allocation of the
buffer necessarily fails), a filter constructed with `new(m)` has
`capacity() ≥ m` for `m ≥ 1`, `capacity() = 0` for `m = 0`, and
`capacity() = 0` holds exactly for `m = 0`. -/
theorem C2_construction_sizing (bs ubs m : Nat) (hbs : 1 ≤ bs) (hub : bs ≤ ubs)
    (hm : m + 104 * ubs < M64) :
    (m = 0 → capacity bs ubs (newFilter bs ubs m) = 0)
    ∧ (1 ≤ m → m ≤ capacity bs ubs (newFilter bs ubs m))
    ∧ (capacity bs ubs (newFilter bs ubs m) = 0 ↔ m = 0) := by
  refine ⟨?_, ?_, ?_, ?_⟩
  · intro h; subst h; exact capacity_zero bs ubs
  · intro h; exact (newFilter_capacity_core bs ubs m hbs hub h hm).2.1
  · intro hc
    by_contra hne
    have := (newFilter_capacity_core bs ubs m hbs hub (by omega) hm).2.1
    omega
  · intro h; subst h; exact capacity_zero bs ubs

theorem C2_witness : 1000 ≤ capacity 1 1 (newFilter 1 1 1000) :=
  (C2_construction_sizing 1 1 1000 (by norm_num) (by norm_num)
    (by norm_num [M64])).2.1 (by norm_num)

/-- C3: Capacity-0 degeneracy.  For any filter state with `capacity() = 0`
(which, for states respecting the engine invariant that an allocated array
has nonzero capacity, means the null-array sentinel state of an `m = 0`
construction or a moved-from filter), `may_contain` returns `true` for
every input and `insert` leaves the state completely unchanged. -/
theorem C3_capacity_zero_degeneracy {S : Subfilter} (hS : SubfilterSound S)
    (k bs ubs : Nat) (st : FilterState)
    (hInv : st.hasData = true → capacity bs ubs st ≠ 0)
    (hcap : capacity bs ubs st = 0) (x h : Nat) :
    mayContain S k bs st x = true ∧ insert S k bs st h = st := by
  have hd : st.hasData = false := by
    cases hd : st.hasData
    · rfl
    · exact absurd hcap (hInv hd)
  constructor
  · apply mayContain_of_contains hS
    intro hcontra
    rw [hd] at hcontra
    exact absurd hcontra (by decide)
  · rw [insert, hd]
    simp

theorem C3_witness :
    mayContain (multiblockSF 3 2) 2 1 (newFilter 1 2 0) 7 = true
    ∧ insert (multiblockSF 3 2) 2 1 (newFilter 1 2 0) 7 = newFilter 1 2 0 :=
  C3_capacity_zero_degeneracy (multiblockSF_sound 3 2) 2 1 2 (newFilter 1 2 0)
    (by intro hcontra; simp [newFilter] at hcontra) (capacity_zero 1 2) 7 7

/-- C4: Combine atomicity.  If the two operands' ranges differ, both
`a &= b` and `a |= b` raise the incompatible-filters error with `a`'s
array bytes exactly as before the call (the throw precedes the byte loop);
if the ranges are equal no error is raised and every used byte of the
result is the bitwise AND (resp. OR) of the corresponding operand bytes. -/
theorem C4_combine_atomicity (bs ubs : Nat) (a b : FilterState) :
    (stRange a ≠ stRange b →
      combineAnd bs ubs a b = (a, some "incompatible filters")
      ∧ combineOr bs ubs a b = (a, some "incompatible filters"))
    ∧ (stRange a = stRange b →
      (combineAnd bs ubs a b).2 = none ∧ (combineOr bs ubs a b).2 = none
      ∧ ∀ j, j < usedArraySize bs ubs (stRange a) →
        byteAt (combineAnd bs ubs a b).1.array j = byteAt a.array j &&& byteAt b.array j
        ∧ byteAt (combineOr bs ubs a b).1.array j
            = byteAt a.array j ||| byteAt b.array j) := by
  constructor
  · intro hne
    constructor <;> simp [combineAnd, combineOr, combine, hne]
  · intro heq
    refine ⟨by simp [combineAnd, combine, heq], by simp [combineOr, combine, heq], ?_⟩
    intro j hj
    have h256 : (256 : Nat) = 2 ^ 8 := by norm_num
    constructor
    · have harr : (combineAnd bs ubs a b).1.array
          = combineBytes (fun p q => p &&& q) (usedArraySize bs ubs (stRange a))
              a.array b.array := by
        simp [combineAnd, combine, heq]
      rw [harr, combineBytes, byteAt_packBytes _ _ j hj]
      exact Nat.mod_eq_of_lt (Nat.lt_of_le_of_lt Nat.and_le_left (byteAt_lt a.array j))
    · have harr : (combineOr bs ubs a b).1.array
          = combineBytes (fun p q => p ||| q) (usedArraySize bs ubs (stRange a))
              a.array b.array := by
        simp [combineOr, combine, heq]
      rw [harr, combineBytes, byteAt_packBytes _ _ j hj]
      apply Nat.mod_eq_of_lt
      rw [h256]
      exact Nat.or_lt_two_pow (h256 ▸ byteAt_lt a.array j) (h256 ▸ byteAt_lt b.array j)

theorem C4_witness :
    combineAnd 1 1 ⟨3, true, 0⟩ ⟨5, true, 0⟩
      = (⟨3, true, 0⟩, some "incompatible filters")
    ∧ combineOr 1 1 ⟨3, true, 0⟩ ⟨5, true, 0⟩
      = (⟨3, true, 0⟩, some "incompatible filters") :=
  (C4_combine_atomicity 1 1 ⟨3, true, 0⟩ ⟨5, true, 0⟩).1 (by decide)

/-- C5: Capacity round-trip.  For every possible result `m` of the
floating-point solver `unadjusted_capacity_for` (hence for every
`capacity_for(n, p)`), constructing a filter with that many bits yields
exactly `capacity_for`'s value; the requested-range/used-array-size
composition is a fixed point, as the comment in `requested_range` states
(`filter_core{f.capacity()}.capacity() == f.capacity()`). -/
theorem C5_capacity_roundtrip (bs ubs m : Nat) (hbs : 1 ≤ bs) (hub : bs ≤ ubs)
    (hm : m + 300 * ubs < M64) :
    capacity bs ubs (newFilter bs ubs (capacityFromUnadjusted bs ubs m))
      = capacityFromUnadjusted bs ubs m
    ∧ capacityFromUnadjusted bs ubs m = capacity bs ubs (newFilter bs ubs m) := by
  have hcfu := capacityFromUnadjusted_eq bs ubs m
  refine ⟨?_, hcfu⟩
  by_cases h0 : m = 0
  · subst h0
    rw [hcfu, capacity_zero]
    exact capacity_zero bs ubs
  · obtain ⟨hform, hge, hle, hrng1⟩ :=
      newFilter_capacity_core bs ubs m hbs hub (by omega) (by omega)
    rw [hcfu, hform]
    apply capacity_fixed_core bs ubs _ hbs hub hrng1 (mcgRng_mod8 _)
    rw [← hform]
    have hbs8 : bs * 8 ≤ ubs * 8 := by omega
    omega

theorem C5_witness :
    capacity 1 1 (newFilter 1 1 (capacityFromUnadjusted 1 1 1000))
      = capacityFromUnadjusted 1 1 1000 :=
  (C5_capacity_roundtrip 1 1 1000 (by norm_num) (by norm_num)
    (by norm_num [M64])).1

/-- C6: rng invariant.  Whenever the adjustment cannot wrap (true of every
range the engine actually requests), the multiplier computed by the
`mcg_and_fastrange` constructor is the smallest value `≥ m` with
`rng mod 8 ∈ {3, 5}` — in particular odd — and the stored `rng` of every
constructed filter state satisfies `rng mod 8 ∈ {3, 5}` unconditionally. -/
theorem C6_rng_invariant (m : Nat) (hm : m + 11 < M64) :
    (mcgRng m % 8 = 3 ∨ mcgRng m % 8 = 5)
    ∧ mcgRng m % 2 = 1
    ∧ m ≤ mcgRng m
    ∧ (∀ n, m ≤ n → n % 8 = 3 ∨ n % 8 = 5 → mcgRng m ≤ n)
    ∧ (∀ bs ubs m', (newFilter bs ubs m').rng % 8 = 3
        ∨ (newFilter bs ubs m').rng % 8 = 5) := by
  have h8 := mcgRng_mod8 m
  refine ⟨h8, by omega, mcgRng_ge m hm, fun n hn hn8 => mcgRng_least m n hm hn hn8,
    fun bs ubs m' => ?_⟩
  simpa [newFilter] using mcgRng_mod8 (requestedRange bs ubs m')

theorem C6_witness : mcgRng 12 % 8 = 3 ∨ mcgRng 12 % 8 = 5 :=
  (C6_rng_invariant 12 (by norm_num [M64])).1

/-- C7: Fast-range bound.  For every 64-bit hash and every multiplier
`1 ≤ rng < 2^64`, `next_position` returns the high 64 bits of the 128-bit
product `hash * rng`, this position lies in `[0, rng)`, and the updated
hash is `hash * rng mod 2^64`. -/
theorem C7_fastrange (rng hash : Nat) (h1 : 1 ≤ rng) (hr : rng < M64)
    (hh : hash < M64) :
    (nextPosition rng hash).1 = hash * rng / M64
    ∧ (nextPosition rng hash).1 < rng
    ∧ (nextPosition rng hash).2 = hash * rng % M64 := by
  refine ⟨?_, nextPosition_lt rng hash h1 hr hh, rfl⟩
  have hlt : hash * rng < M64 * rng := by
    have := Nat.mul_lt_mul_of_lt_of_le hh (Nat.le_refl rng) h1
    simpa using this
  have hdiv : hash * rng / M64 < rng :=
    Nat.div_lt_of_lt_mul (by simpa [Nat.mul_comm] using hlt)
  simp [nextPosition, umul128, Nat.mod_eq_of_lt (Nat.lt_trans hdiv hr)]

theorem C7_witness :
    (nextPosition 10 3).1 = 3 * 10 / M64
    ∧ (nextPosition 10 3).1 < 10
    ∧ (nextPosition 10 3).2 = 3 * 10 % M64 :=
  C7_fastrange 10 3 (by norm_num) (by norm_num [M64]) (by norm_num [M64])

/-- C8: Odd-hash invariant.  After `prepare_hash` forces the low bit of
the hash to 1, every hash produced along the `K` rounds of
`insert`/`may_contain` (the round stream `roundList`) has its low bit set,
provided the multiplier `rng` is odd — which `mcg_and_fastrange`
guarantees. -/
theorem C8_odd_hash (rng hash k : Nat) (hr : rng % 2 = 1) :
    ∀ pr ∈ roundList rng (prepareHash hash) k, pr.2 % 2 = 1 :=
  roundList_odd rng (prepareHash hash) k hr (prepareHash_odd hash)

theorem C8_witness : ((0 : Nat), (33 : Nat)).2 % 2 = 1 :=
  C8_odd_hash 3 10 2 (by norm_num) (0, 33) (by decide)

/-- C9: Wide-multiply correctness.  For all 64-bit `x` and `y`, `umul128`
returns the exact 128-bit product split into 64-bit halves, and the
portable 32×32 schoolbook fallback computes exactly the same pair as the
128-bit-integer implementation. -/
theorem C9_umul128 (x y : Nat) (hx : x < M64) (hy : y < M64) :
    (umul128 x y).2 * M64 + (umul128 x y).1 = x * y
    ∧ umul128Portable x y = umul128 x y :=
  ⟨umul128_exact x y hx hy, umul128Portable_eq x y hx hy⟩

theorem C9_witness :
    (umul128 9223372036854788153 987654321987654321).2 * M64
        + (umul128 9223372036854788153 987654321987654321).1
      = 9223372036854788153 * 987654321987654321
    ∧ umul128Portable 9223372036854788153 987654321987654321
      = umul128 9223372036854788153 987654321987654321 :=
  C9_umul128 9223372036854788153 987654321987654321
    (by norm_num [M64]) (by norm_num [M64])

/-- C10: Insert monotonicity.  `insert` only ORs bits into the array —
the array is pointwise bitwise-monotone non-decreasing under `insert` —
so once `may_contain(x)` is `true` it stays `true` after any further
insert (hence after any sequence of them). -/
theorem C10_insert_monotone {S : Subfilter} (hS : SubfilterSound S)
    (k bs : Nat) (st : FilterState) (h x : Nat) :
    bitSub st.array (insert S k bs st h).array
    ∧ (mayContain S k bs st x = true →
        mayContain S k bs (insert S k bs st h) x = true) :=
  ⟨insert_array_grows hS k bs st h, mayContain_mono hS k bs st h x⟩

theorem C10_witness :
    bitSub (FilterState.mk 5 true 7).array
      (insert (multiblockSF 3 2) 2 1 (FilterState.mk 5 true 7) 42).array :=
  (C10_insert_monotone (multiblockSF_sound 3 2) 2 1 ⟨5, true, 7⟩ 42 99).1

end Bloom
